import Mathlib

/-!
Shallow embedding of the `rust_deduplicate` program (`src/main.rs`).

Files are modelled as lists of bytes (`List Nat`), lines as byte lists.
`bytesLt` is the byte-wise lexicographic order used by Rust's `String`
ordering (UTF-8 byte order).  `readLineFrom` models `BufRead::read_line`
(the returned line keeps its trailing newline byte 10), `linesOf` models
`BufRead::lines` (the trailing `\n` / `\r\n` is stripped), `chunksAux`
models the chunk-filling loop of `remove_duplicates_large_file`,
`process_chunk_sequential` models per-chunk sort + dedup + `writeln!`,
and `mergeLoopF` models the `BinaryHeap`-driven merge loop of
`merge_sorted_files` (fuel-indexed so that it is structurally recursive;
the fuel supplied by `merge_sorted_files_pol` always suffices).
A second model (`merge_sorted_files_err`) additionally tracks the I/O
failure behaviour of `merge_sorted_files`: `File::open(..).unwrap()`
panics on an open failure, while `read_line(..)?` propagates an I/O
error result.
-/

namespace Dedup

abbrev Line := List Nat

/-- Byte-wise lexicographic strict order, as Rust's `Ord` on `String`
compares the UTF-8 bytes of the two strings. -/
def bytesLt : List Nat → List Nat → Bool
  | _, [] => false
  | [], _ :: _ => true
  | a :: as, b :: bs => if a < b then true else if a = b then bytesLt as bs else false

/-- Non-strict byte order (`a <= b` iff `!(b < a)`), the comparator sense
used by `Vec::sort`. -/
def bytesLe (a b : List Nat) : Bool := !(bytesLt b a)

/-- `a < b` as a proposition. -/
abbrev ltB (a b : Line) : Prop := bytesLt a b = true

/-- `a ≤ b` as a proposition. -/
abbrev leB (a b : Line) : Prop := bytesLt b a = false

/-- `BufRead::read_line`: consume bytes up to and including the first
newline byte 10 (or all remaining bytes when no newline is left).
Returns the line read (including its trailing 10) and the rest. -/
def readLineFrom : List Nat → List Nat × List Nat
  | [] => ([], [])
  | b :: rest =>
    if b = 10 then ([10], rest)
    else ((b :: (readLineFrom rest).1), (readLineFrom rest).2)

/-- Accumulator worker for `rawLines`. -/
def rawLinesAux : List Nat → List Nat → List (List Nat)
  | acc, [] => if acc = [] then [] else [acc.reverse]
  | acc, b :: rest =>
    if b = 10 then (acc.reverse ++ [10]) :: rawLinesAux [] rest
    else rawLinesAux (b :: acc) rest

/-- The sequence of lines obtained by iterating `read_line` until it
returns 0: each element still carries its trailing newline byte,
except possibly the last one (when the file does not end in 10). -/
def rawLines (f : List Nat) : List (List Nat) := rawLinesAux [] f

/-- Strip one trailing `\n` or `\r\n`, as `BufRead::lines` does. -/
def chomp (l : List Nat) : List Nat :=
  match l.reverse with
  | 10 :: 13 :: r => r.reverse
  | 10 :: r => r.reverse
  | _ => l

/-- `BufRead::lines`: the lines of a file, without their terminators. -/
def linesOf (f : List Nat) : List Line := (rawLines f).map chomp

/-- The chunk-filling loop of `remove_duplicates_large_file`: push each
line, and flush the chunk whenever its length reaches the capacity;
a non-empty remainder is flushed at the end.  `curr` holds the current
chunk in reverse order. -/
def chunksAux (cap : Nat) : List Line → List Line → List (List Line)
  | curr, [] => if curr = [] then [] else [curr.reverse]
  | curr, l :: rest =>
    if cap ≤ (l :: curr).length then (l :: curr).reverse :: chunksAux cap [] rest
    else chunksAux cap (l :: curr) rest

/-- Split the input lines into chunks of at most `cap` lines. -/
def chunksOf (cap : Nat) (ls : List Line) : List (List Line) := chunksAux cap [] ls

/-- Insert a line into a sorted list (used to model `Vec::sort`; on the
total order `bytesLe` the sorted permutation is unique, so any sort
produces this result). -/
def insertLine (x : Line) : List Line → List Line
  | [] => [x]
  | y :: ys => if bytesLe x y then x :: y :: ys else y :: insertLine x ys

/-- `lines.sort()`: sort the chunk ascending by `bytesLe`. -/
def sortLines : List Line → List Line
  | [] => []
  | x :: xs => insertLine x (sortLines xs)

/-- Worker for `dedupConsec`: drop elements equal to the previous kept one. -/
def dedupFrom (a : Line) : List Line → List Line
  | [] => []
  | b :: r => if b = a then dedupFrom a r else b :: dedupFrom b r

/-- `lines.dedup()`: remove consecutive duplicates, keeping the first of
each run. -/
def dedupConsec : List Line → List Line
  | [] => []
  | a :: r => a :: dedupFrom a r

/-- The list of lines a processed chunk contains: sorted, consecutive
duplicates removed (`lines.sort(); lines.dedup();`). -/
def processChunkLines (chunk : List Line) : List Line :=
  dedupConsec (sortLines chunk)

/-- `writeln!(writer, "{}", line)` for each line: every record is the
line's bytes followed by a newline byte. -/
def writeLines (ls : List Line) : List Nat := (ls.map (fun l => l ++ [10])).flatten

/-- `process_chunk_sequential`: the bytes of the temporary run file
written for one chunk. -/
def process_chunk_sequential (chunk : List Line) : List Nat :=
  writeLines (processChunkLines chunk)

/-- Does heap entry `a` pop before heap entry `b`?  Rust's `BinaryHeap`
over `(Reverse(line), index)` pops the smallest line first; `pol`
decides the winner between equal lines (for the real code: the larger
index, see `tieCode`). -/
def heapPopsBefore (pol : Nat → Nat → Bool) (a b : Line × Nat) : Bool :=
  if bytesLt a.1 b.1 then true
  else if a.1 = b.1 then pol a.2 b.2
  else false

/-- Pop the minimum entry of the heap (modelled as a list of entries),
returning it together with the remaining entries. -/
def popHeap (pol : Nat → Nat → Bool) :
    List (Line × Nat) → Option ((Line × Nat) × List (Line × Nat))
  | [] => none
  | e :: t =>
    match popHeap pol t with
    | none => some (e, [])
    | some (m, rest) =>
      if heapPopsBefore pol m e then some (m, e :: rest) else some (e, t)

/-- Termination measure of the merge loop: total unread bytes plus the
number of heap entries.  Every iteration strictly decreases it. -/
def mergeMeasure (rs : List (List Nat)) (hp : List (Line × Nat)) : Nat :=
  (rs.map List.length).sum + hp.length

/-- The `while let Some(..) = heap.pop()` loop of `merge_sorted_files`:
pop the minimal `(line, index)`; if the line differs from the last line
written, emit `line ++ [10]` (`writeln!` re-appends a newline to the
line, which still carries its own); then `read_line` from reader
`index` and push the new head if it is non-empty.  `none` models the
panic of an out-of-bounds `readers[index]`.  The fuel always suffices
for the fuel chosen by `merge_sorted_files_pol`. -/
def mergeLoopF (pol : Nat → Nat → Bool) :
    Nat → List (List Nat) → List (Line × Nat) → Line → Option (List Nat)
  | 0, _, _, _ => some []
  | fuel + 1, rs, hp, last =>
    match popHeap pol hp with
    | none => some []
    | some ((line, idx), rest) =>
      match rs.get? idx with
      | none => none
      | some rb =>
        let nl := (readLineFrom rb).1
        let rs' := rs.set idx (readLineFrom rb).2
        let hp' := if nl = [] then rest else (nl, idx) :: rest
        if line = last then mergeLoopF pol fuel rs' hp' last
        else (mergeLoopF pol fuel rs' hp' line).map (fun out => (line ++ [10]) ++ out)

/-- The initialization loop of `merge_sorted_files`: read the first line
of each run file and push the non-empty ones (with their reader index)
onto the heap.  Returns the remaining bytes of each reader and the
initial heap. -/
def initReads : Nat → List (List Nat) → List (List Nat) × List (Line × Nat)
  | _, [] => ([], [])
  | i, f :: rest =>
    let p := readLineFrom f
    let s := initReads (i + 1) rest
    (p.2 :: s.1, if p.1 = [] then s.2 else (p.1, i) :: s.2)

/-- Fuel that always suffices for the merge loop. -/
def mergeFuel (files : List (List Nat)) : Nat :=
  (files.map List.length).sum + files.length

/-- `merge_sorted_files`, parametrized by the tie-break policy between
equal heap lines. -/
def merge_sorted_files_pol (pol : Nat → Nat → Bool) (files : List (List Nat)) :
    Option (List Nat) :=
  mergeLoopF pol (mergeFuel files) (initReads 0 files).1 (initReads 0 files).2 []

/-- The code's tie-break: among equal lines, the entry with the larger
reader index is the larger tuple `(Reverse(line), index)`, hence pops
first from the max-heap. -/
def tieCode (i j : Nat) : Bool := Nat.blt j i

/-- `merge_sorted_files` as written in the source. -/
def merge_sorted_files (files : List (List Nat)) : Option (List Nat) :=
  merge_sorted_files_pol tieCode files

/-- `CHUNK_SIZE`: lines per chunk. -/
def CHUNK_SIZE : Nat := 50000000

/-- `remove_duplicates_large_file`, with the chunk capacity made a
parameter (the source fixes it to `CHUNK_SIZE`): read the input lines,
cut them into chunks, process each chunk into a sorted deduplicated run
file, and merge the run files. -/
def remove_duplicates_large_file (cap : Nat) (input : List Nat) : Option (List Nat) :=
  merge_sorted_files ((chunksOf cap (linesOf input)).map process_chunk_sequential)

/-- Multiset-free description of the lines the merge has still to emit:
`x` is pending iff it is a heap line or an unread line of some reader. -/
def InPending (x : Line) (rs : List (List Nat)) (hp : List (Line × Nat)) : Prop :=
  (∃ e ∈ hp, e.1 = x) ∨ (∃ j rb, rs.get? j = some rb ∧ x ∈ rawLines rb)

/-! ### The I/O-failure model of `merge_sorted_files`

`RunFile` describes one temporary run file as the merge phase sees it:
whether `File::open` succeeds, which bytes can be read, and whether a
read past those bytes fails (instead of reporting end of file). -/

/-- A run file together with its I/O behaviour. -/
structure RunFile where
  openOk : Bool
  bytes : List Nat
  readErr : Bool
deriving DecidableEq

/-- Outcome of the merge phase: a panic (from `.unwrap()` or an
out-of-bounds index), an I/O error propagated with `?`, or success. -/
inductive MergeResultE where
  | panicked : MergeResultE
  | ioError : MergeResultE
  | ok : List Nat → MergeResultE
deriving DecidableEq

/-- `read_line` against a reader whose underlying reads fail after the
available bytes run out (`err = true`): reading a full newline-terminated
line succeeds, reaching the end returns an error instead of 0. -/
def readLineE (err : Bool) : List Nat → Option (List Nat × List Nat)
  | [] => if err then none else some ([], [])
  | b :: rest =>
    if b = 10 then some ([10], rest)
    else
      match readLineE err rest with
      | none => none
      | some p => some (b :: p.1, p.2)

/-- The heap-initialization loop with fallible reads: the first read
error aborts with `none`. -/
def initReadsE : Nat → List (List Nat × Bool) →
    Option (List (List Nat × Bool) × List (Line × Nat))
  | _, [] => some ([], [])
  | i, (bytes, err) :: rest =>
    match readLineE err bytes with
    | none => none
    | some p =>
      match initReadsE (i + 1) rest with
      | none => none
      | some s => some ((p.2, err) :: s.1, if p.1 = [] then s.2 else (p.1, i) :: s.2)

/-- Termination measure for the fallible merge loop. -/
def measureE (rs : List (List Nat × Bool)) (hp : List (Line × Nat)) : Nat :=
  (rs.map (fun p => p.1.length)).sum + hp.length

/-- The merge loop with fallible reads: a failing `read_line` propagates
an `ioError`, an out-of-bounds index panics. -/
def mergeLoopE : Nat → List (List Nat × Bool) → List (Line × Nat) → Line → MergeResultE
  | 0, _, _, _ => .ok []
  | fuel + 1, rs, hp, last =>
    match popHeap tieCode hp with
    | none => .ok []
    | some ((line, idx), rest) =>
      match rs.get? idx with
      | none => .panicked
      | some (rb, err) =>
        match readLineE err rb with
        | none => .ioError
        | some p =>
          let rs' := rs.set idx (p.2, err)
          let hp' := if p.1 = [] then rest else (p.1, idx) :: rest
          match mergeLoopE fuel rs' hp' (if line = last then last else line) with
          | .ok out => .ok (if line = last then out else (line ++ [10]) ++ out)
          | e => e

/-- Fuel that always suffices for the fallible merge loop. -/
def mergeFuelE (files : List RunFile) : Nat :=
  (files.map (fun f => f.bytes.length)).sum + files.length

/-- `merge_sorted_files` with its I/O failure modes: the eager
`File::open(file.path()).unwrap()` over all run files panics if any
open fails; afterwards read failures propagate as an I/O error. -/
def merge_sorted_files_err (files : List RunFile) : MergeResultE :=
  if files.any (fun f => !f.openOk) then .panicked
  else
    match initReadsE 0 (files.map (fun f => (f.bytes, f.readErr))) with
    | none => .ioError
    | some s => mergeLoopE (mergeFuelE files) s.1 s.2 []

end Dedup

/-! ## Order facts about `bytesLt` -/

namespace Dedup

theorem bytesLt_nil_right (l : List Nat) : bytesLt l [] = false := by
  cases l <;> rfl

theorem bytesLt_irrefl (l : List Nat) : bytesLt l l = false := by
  induction l with
  | nil => rfl
  | cons a as ih => simp [bytesLt, ih]

theorem bytesLt_cons_cons {x y : Nat} {xs ys : List Nat} :
    bytesLt (x :: xs) (y :: ys) = true ↔ x < y ∨ (x = y ∧ bytesLt xs ys = true) := by
  simp only [bytesLt]
  split_ifs with h1 h2
  · simp [h1]
  · simp [h1, h2]
  · simp [h1, h2]

theorem bytesLt_trans {a b c : List Nat} (h1 : bytesLt a b = true)
    (h2 : bytesLt b c = true) : bytesLt a c = true := by
  induction a generalizing b c with
  | nil =>
    cases b with
    | nil => simp [bytesLt] at h1
    | cons y ys =>
      cases c with
      | nil => simp [bytesLt_nil_right] at h2
      | cons z zs => simp [bytesLt]
  | cons x xs ih =>
    cases b with
    | nil => simp [bytesLt_nil_right] at h1
    | cons y ys =>
      cases c with
      | nil => simp [bytesLt_nil_right] at h2
      | cons z zs =>
        rw [bytesLt_cons_cons] at h1 h2 ⊢
        rcases h1 with h | ⟨rfl, h⟩ <;> rcases h2 with h' | ⟨rfl, h'⟩
        · exact Or.inl (Nat.lt_trans h h')
        · exact Or.inl h
        · exact Or.inl h'
        · exact Or.inr ⟨rfl, ih h h'⟩

theorem bytesLt_eq_of_not {a : List Nat} : ∀ {b : List Nat},
    bytesLt a b = false → bytesLt b a = false → a = b := by
  induction a with
  | nil =>
    intro b h1 h2
    cases b with
    | nil => rfl
    | cons y ys => simp [bytesLt] at h1
  | cons x xs ih =>
    intro b h1 h2
    cases b with
    | nil => simp [bytesLt] at h2
    | cons y ys =>
      have h1' : ¬ (x < y ∨ (x = y ∧ bytesLt xs ys = true)) := by
        rw [← bytesLt_cons_cons]; simp [h1]
      have h2' : ¬ (y < x ∨ (y = x ∧ bytesLt ys xs = true)) := by
        rw [← bytesLt_cons_cons]; simp [h2]
      push_neg at h1' h2'
      have hxy : x = y := by omega
      subst hxy
      have e1 : bytesLt xs ys = false := by
        have := h1'.2 rfl
        simpa using this
      have e2 : bytesLt ys xs = false := by
        have := h2'.2 rfl
        simpa using this
      rw [ih e1 e2]

theorem bytesLt_asymm {a b : List Nat} (h : bytesLt a b = true) :
    bytesLt b a = false := by
  cases hb : bytesLt b a
  · rfl
  · exact absurd (bytesLt_trans h hb) (by simp [bytesLt_irrefl])

theorem lt_of_not_lt_ne {a b : List Nat} (h : bytesLt b a = false) (hne : a ≠ b) :
    bytesLt a b = true := by
  cases hab : bytesLt a b
  · exact absurd (bytesLt_eq_of_not hab h) hne
  · rfl

theorem leB_trans {a b c : Line} (h1 : leB a b) (h2 : leB b c) : leB a c := by
  by_cases hab : a = b
  · subst hab; exact h2
  · cases hca : bytesLt c a
    · exact hca
    · have hcb : bytesLt c b = true := bytesLt_trans hca (lt_of_not_lt_ne h1 hab)
      rw [h2] at hcb
      exact Bool.noConfusion hcb

theorem ltB_ne {a b : Line} (h : ltB a b) : a ≠ b := by
  intro he
  subst he
  exact Bool.noConfusion ((bytesLt_irrefl a).symm.trans h)

theorem bytesLe_iff {a b : Line} : bytesLe a b = true ↔ leB a b := by
  simp [bytesLe, leB]

theorem bytesLe_false {a b : Line} (h : bytesLe a b = false) : ltB b a := by
  simpa [bytesLe] using h

/-! ## Chain helpers -/

theorem chain'_rel_head {R : Line → Line → Prop}
    (htr : ∀ a b c, R a b → R b c → R a c) :
    ∀ {a : Line} {t : List Line}, List.Chain' R (a :: t) → ∀ x ∈ t, R a x := by
  intro a t
  induction t generalizing a with
  | nil => intro _ x hx; cases hx
  | cons b t ih =>
    intro h x hx
    have hab : R a b := (List.chain'_cons.mp h).1
    have ht : List.Chain' R (b :: t) := (List.chain'_cons.mp h).2
    rcases List.mem_cons.mp hx with rfl | hx'
    · exact hab
    · exact htr _ _ _ hab (ih ht x hx')

theorem chain'_of_head_rel {R : Line → Line → Prop}
    (htr : ∀ a b c, R a b → R b c → R a c)
    {a b : Line} {t : List Line} (hab : R a b) (h : List.Chain' R (b :: t)) :
    List.Chain' R (a :: t) := by
  cases t with
  | nil => simp
  | cons c t' =>
    rw [List.chain'_cons] at h ⊢
    exact ⟨htr _ _ _ hab h.1, h.2⟩

theorem pairwise_of_chain' {R : Line → Line → Prop}
    (htr : ∀ a b c, R a b → R b c → R a c) :
    ∀ {l : List Line}, List.Chain' R l → l.Pairwise R := by
  intro l
  induction l with
  | nil => intro _; exact List.Pairwise.nil
  | cons a t ih =>
    intro h
    exact List.Pairwise.cons (chain'_rel_head htr h) (ih h.tail)

/-! ## Sorting and deduplication of a chunk -/

theorem chain'_insertLine_of_le {x : Line} :
    ∀ {y : Line} {ys : List Line}, List.Chain' leB (y :: ys) → leB y x →
      List.Chain' leB (y :: insertLine x ys) := by
  intro y ys
  induction ys generalizing y with
  | nil =>
    intro _ hyx
    simp only [insertLine]
    exact List.chain'_cons.mpr ⟨hyx, List.chain'_singleton x⟩
  | cons z zs ih =>
    intro h hyx
    simp only [insertLine]
    by_cases hxz : bytesLe x z = true
    · rw [if_pos hxz]
      exact List.chain'_cons.mpr ⟨hyx,
        List.chain'_cons.mpr ⟨bytesLe_iff.mp hxz, (List.chain'_cons.mp h).2⟩⟩
    · rw [if_neg hxz]
      have hzx : leB z x := bytesLt_asymm (bytesLe_false (by simpa using hxz))
      exact List.chain'_cons.mpr ⟨(List.chain'_cons.mp h).1,
        ih (List.chain'_cons.mp h).2 hzx⟩

theorem chain'_insertLine {x : Line} :
    ∀ {l : List Line}, List.Chain' leB l → List.Chain' leB (insertLine x l) := by
  intro l
  induction l with
  | nil => intro _; simp [insertLine]
  | cons y ys _ =>
    intro h
    simp only [insertLine]
    by_cases hxy : bytesLe x y = true
    · rw [if_pos hxy]
      exact List.chain'_cons.mpr ⟨bytesLe_iff.mp hxy, h⟩
    · rw [if_neg hxy]
      have hyx : leB y x := bytesLt_asymm (bytesLe_false (by simpa using hxy))
      exact chain'_insertLine_of_le h hyx

theorem sortLines_chain' (l : List Line) : List.Chain' leB (sortLines l) := by
  induction l with
  | nil => exact List.chain'_nil
  | cons x xs ih => exact chain'_insertLine ih

theorem chain'_dedupFrom {a : Line} : ∀ {l : List Line},
    List.Chain' leB (a :: l) → List.Chain' ltB (a :: dedupFrom a l) := by
  intro l
  induction l generalizing a with
  | nil => intro _; simp [dedupFrom]
  | cons b r ih =>
    intro h
    simp only [dedupFrom]
    by_cases hba : b = a
    · rw [if_pos hba]
      apply ih
      subst hba
      exact (List.chain'_cons.mp h).2
    · rw [if_neg hba]
      have h1 : leB a b := (List.chain'_cons.mp h).1
      have h2 : List.Chain' leB (b :: r) := (List.chain'_cons.mp h).2
      exact List.chain'_cons.mpr
        ⟨lt_of_not_lt_ne h1 (fun he => hba he.symm), ih h2⟩

theorem processChunkLines_chain' (chunk : List Line) :
    List.Chain' ltB (processChunkLines chunk) := by
  unfold processChunkLines
  cases hs : sortLines chunk with
  | nil => simp [dedupConsec]
  | cons a r =>
    simp only [dedupConsec]
    exact chain'_dedupFrom (hs ▸ sortLines_chain' chunk)

end Dedup

/-! ## Claims C1 -- C7 -/

namespace Dedup

/-- C1: the claim states that the output file contains strictly
ascending lines (sorted, duplicate-free, `line[i] < line[i+1]` for all
adjacent pairs).  The code violates this for every non-empty input:
in the merge loop the popped line still carries its trailing newline
byte, and `writeln!` appends a second one, so a blank line follows
every output line.  For the input file `a\nb\n` the output file is
`a\n\nb\n\n`, whose line sequence `[a, "", b, ""]` is not strictly
ascending at the adjacent pair `(a, "")`. -/
theorem output_lines_not_strictly_sorted :
    remove_duplicates_large_file CHUNK_SIZE [97, 10, 98, 10] =
      some [97, 10, 10, 98, 10, 10] ∧
    linesOf [97, 10, 10, 98, 10, 10] = [[97], [], [98], []] ∧
    ¬ List.Chain' ltB [[97], [], [98], []] := by
  refine ⟨by decide, by decide, ?_⟩
  intro h
  have := (List.chain'_cons.mp h).1
  exact absurd this (by decide)

/-- C2: the claim states that the distinct lines of the output equal
the distinct lines of the input.  The code invents the empty line: for
the input `a\nb\n` (lines `[a, b]`) the output is `a\n\nb\n\n`, whose
lines include the blank line `[]`, which does not occur in the input. -/
theorem output_invents_blank_line :
    remove_duplicates_large_file CHUNK_SIZE [97, 10, 98, 10] =
      some [97, 10, 10, 98, 10, 10] ∧
    [] ∈ linesOf [97, 10, 10, 98, 10, 10] ∧
    [] ∉ linesOf [97, 10, 98, 10] := by
  refine ⟨by decide, by decide, by decide⟩

/-- C3: the claim states that running the pipeline on an already
sorted, duplicate-free file reproduces the file.  The input `a\n` is
sorted with no duplicates, yet the pipeline produces `a\n\n`, which
differs from the input (the extra blank line again). -/
theorem pipeline_not_idempotent_on_sorted_file :
    linesOf [97, 10] = [[97]] ∧ List.Chain' ltB [[97]] ∧
    remove_duplicates_large_file CHUNK_SIZE [97, 10] = some [97, 10, 10] ∧
    [97, 10, 10] ≠ [97, 10] := by
  exact ⟨by decide, List.chain'_singleton _, by decide, by decide⟩

/-- C4: the claim states that the final output is independent of the
chunk capacity.  It is not: the merge heap compares lines including
their trailing newline byte 10, while each run was sorted on the bare
line, so a line extending another with a byte below 10 (here a tab,
byte 9) is ordered differently by the two phases.  For the input
`a\t\na\n` (lines `[a\t, a]`, N = 2) capacity 1 and capacity 2 produce
different output files. -/
theorem chunk_capacity_changes_output :
    remove_duplicates_large_file 1 [97, 9, 10, 97, 10] =
      some [97, 9, 10, 10, 97, 10, 10] ∧
    remove_duplicates_large_file 2 [97, 9, 10, 97, 10] =
      some [97, 10, 10, 97, 9, 10, 10] ∧
    remove_duplicates_large_file 1 [97, 9, 10, 97, 10] ≠
      remove_duplicates_large_file 2 [97, 9, 10, 97, 10] := by
  refine ⟨by decide, by decide, by decide⟩

/-- C5: the claim states that a value occurring in two different
chunks appears exactly once in the final output.  With capacity 2 and
input lines `[a, b, a\t, a]` the value `a` is in chunk `[a, b]` and in
chunk `[a\t, a]` (runs `[a, b]` and `[a, a\t]`), yet the output
contains the line `a` twice: after run 1's `a` is emitted and run 1
advances to `a\t` (whose raw form `a\t\n` sorts below `a\n`), the
last-written line becomes `a\t\n`, so run 0's `a` no longer compares
equal and is written again. -/
theorem cross_chunk_duplicate_emitted_twice :
    remove_duplicates_large_file 2 [97, 10, 98, 10, 97, 9, 10, 97, 10] =
      some [97, 10, 10, 97, 9, 10, 10, 97, 10, 10, 98, 10, 10] ∧
    (linesOf [97, 10, 10, 97, 9, 10, 10, 97, 10, 10, 98, 10, 10]).count [97] = 2 := by
  refine ⟨by decide, by decide⟩

/-- C6: processing a chunk (`lines.sort(); lines.dedup();`) yields a
run whose line sequence is strictly increasing, hence free of
duplicates; the chunk itself is only read (`chunk.to_vec()` copies). -/
theorem chunk_run_strictly_sorted (chunk : List Line) :
    List.Chain' ltB (processChunkLines chunk) ∧
      (processChunkLines chunk).Pairwise (fun a b => a ≠ b) := by
  refine ⟨processChunkLines_chain' chunk, ?_⟩
  exact (pairwise_of_chain' (R := ltB) (fun _ _ _ h1 h2 => bytesLt_trans h1 h2)
    (processChunkLines_chain' chunk)).imp (fun h => ltB_ne h)

/-- C7: an empty input produces an empty output for every capacity,
and the merger run on zero run files produces empty output. -/
theorem empty_input_gives_empty_output :
    (∀ cap, remove_duplicates_large_file cap [] = some []) ∧
      merge_sorted_files [] = some [] :=
  ⟨fun _ => rfl, rfl⟩

end Dedup

/-! ## Heap and reader lemmas -/

namespace Dedup

theorem popHeap_cons_ne_none (pol : Nat → Nat → Bool) (x : Line × Nat)
    (t : List (Line × Nat)) : popHeap pol (x :: t) ≠ none := by
  simp only [popHeap]
  cases ht : popHeap pol t with
  | none => simp
  | some p =>
    obtain ⟨m, r⟩ := p
    by_cases hc : heapPopsBefore pol m x = true <;> simp [hc]

theorem popHeap_none_iff (pol : Nat → Nat → Bool) {hp : List (Line × Nat)} :
    popHeap pol hp = none ↔ hp = [] := by
  cases hp with
  | nil => simp [popHeap]
  | cons x t =>
    constructor
    · intro h; exact absurd h (popHeap_cons_ne_none pol x t)
    · intro h; exact List.noConfusion h

theorem popHeap_perm (pol : Nat → Nat → Bool) : ∀ {hp : List (Line × Nat)}
    {e : Line × Nat} {rest : List (Line × Nat)},
    popHeap pol hp = some (e, rest) → hp.Perm (e :: rest) := by
  intro hp
  induction hp with
  | nil => intro e rest h; simp [popHeap] at h
  | cons x t ih =>
    intro e rest h
    cases ht : popHeap pol t with
    | none =>
      simp only [popHeap, ht] at h
      cases h
      have : t = [] := (popHeap_none_iff pol).mp ht
      subst this
      exact List.Perm.refl _
    | some p =>
      obtain ⟨m, r⟩ := p
      simp only [popHeap, ht] at h
      by_cases hc : heapPopsBefore pol m x = true
      · rw [if_pos hc] at h
        cases h
        have h1 : (x :: t).Perm (x :: e :: r) := (ih ht).cons x
        have h2 : (x :: e :: r).Perm (e :: x :: r) := List.Perm.swap _ _ _
        exact h1.trans h2
      · rw [if_neg hc] at h
        cases h
        exact List.Perm.refl _

theorem heapPopsBefore_true {pol : Nat → Nat → Bool} {a b : Line × Nat}
    (h : heapPopsBefore pol a b = true) : bytesLt b.1 a.1 = false := by
  unfold heapPopsBefore at h
  split_ifs at h with h1 h2
  · exact bytesLt_asymm h1
  · rw [h2]; exact bytesLt_irrefl _

theorem heapPopsBefore_false {pol : Nat → Nat → Bool} {a b : Line × Nat}
    (h : heapPopsBefore pol a b = false) : bytesLt a.1 b.1 = false := by
  unfold heapPopsBefore at h
  split_ifs at h with h1 h2
  · rw [h2]; exact bytesLt_irrefl _
  · simpa using h1

theorem popHeap_min (pol : Nat → Nat → Bool) : ∀ {hp : List (Line × Nat)}
    {e : Line × Nat} {rest : List (Line × Nat)},
    popHeap pol hp = some (e, rest) → ∀ y ∈ hp, bytesLt y.1 e.1 = false := by
  intro hp
  induction hp with
  | nil => intro e rest h; simp [popHeap] at h
  | cons x t ih =>
    intro e rest h y hy
    cases ht : popHeap pol t with
    | none =>
      simp only [popHeap, ht] at h
      cases h
      have : t = [] := (popHeap_none_iff pol).mp ht
      subst this
      rcases List.mem_cons.mp hy with rfl | hyt
      · exact bytesLt_irrefl _
      · cases hyt
    | some p =>
      obtain ⟨m, r⟩ := p
      simp only [popHeap, ht] at h
      by_cases hc : heapPopsBefore pol m x = true
      · rw [if_pos hc] at h
        cases h
        rcases List.mem_cons.mp hy with rfl | hyt
        · exact heapPopsBefore_true hc
        · exact ih ht y hyt
      · rw [if_neg hc] at h
        cases h
        rcases List.mem_cons.mp hy with rfl | hyt
        · exact bytesLt_irrefl _
        · exact leB_trans (heapPopsBefore_false (Bool.eq_false_iff.mpr hc)) (ih ht y hyt)

theorem readLineFrom_length (l : List Nat) :
    (readLineFrom l).1.length + (readLineFrom l).2.length = l.length := by
  induction l with
  | nil => rfl
  | cons b rest ih =>
    by_cases hb : b = 10
    · subst hb
      have h : readLineFrom (10 :: rest) = ([10], rest) := rfl
      rw [h, List.length_cons]
      simp [Nat.add_comm]
    · simp only [readLineFrom, if_neg hb, List.length_cons]
      omega

theorem readLineFrom_fst_eq_nil {l : List Nat} :
    (readLineFrom l).1 = [] ↔ l = [] := by
  cases l with
  | nil => simp [readLineFrom]
  | cons b rest =>
    simp only [readLineFrom]
    by_cases hb : b = 10 <;> simp [hb]

theorem initReads_fst_length : ∀ (fs : List (List Nat)) (n : Nat),
    (initReads n fs).1.length = fs.length := by
  intro fs
  induction fs with
  | nil => intro n; rfl
  | cons f rest ih => intro n; simp [initReads, ih]

theorem initReads_fst_get? : ∀ (fs : List (List Nat)) (n k : Nat),
    (initReads n fs).1.get? k = (fs.get? k).map (fun f => (readLineFrom f).2) := by
  intro fs
  induction fs with
  | nil => intro n k; simp [initReads]
  | cons f rest ih =>
    intro n k
    cases k with
    | zero => simp [initReads]
    | succ k => simpa [initReads] using ih (n + 1) k

theorem initReads_hp_mem : ∀ (fs : List (List Nat)) (n : Nat) (e : Line × Nat),
    e ∈ (initReads n fs).2 → ∃ k f, fs.get? k = some f ∧
      e.1 = (readLineFrom f).1 ∧ e.1 ≠ [] ∧ e.2 = n + k := by
  intro fs
  induction fs with
  | nil => intro n e h; simp [initReads] at h
  | cons f rest ih =>
    intro n e h
    simp only [initReads] at h
    by_cases hf : (readLineFrom f).1 = []
    · rw [if_pos hf] at h
      obtain ⟨k, g, hg, h1, h2, h3⟩ := ih (n + 1) e h
      exact ⟨k + 1, g, by simpa using hg, h1, h2, by omega⟩
    · rw [if_neg hf] at h
      rcases List.mem_cons.mp h with rfl | h'
      · exact ⟨0, f, rfl, rfl, hf, rfl⟩
      · obtain ⟨k, g, hg, h1, h2, h3⟩ := ih (n + 1) e h'
        exact ⟨k + 1, g, by simpa using hg, h1, h2, by omega⟩

theorem initReads_hp_cover : ∀ (fs : List (List Nat)) (n k : Nat) (f : List Nat),
    fs.get? k = some f → (readLineFrom f).1 ≠ [] →
    ((readLineFrom f).1, n + k) ∈ (initReads n fs).2 := by
  intro fs
  induction fs with
  | nil => intro n k f h _; simp at h
  | cons g rest ih =>
    intro n k f h hne
    cases k with
    | zero =>
      cases h
      simp only [initReads, Nat.add_zero, if_neg hne]
      exact List.mem_cons_self _ _
    | succ k =>
      have h' : rest.get? k = some f := by simpa using h
      have := ih (n + 1) k f h' hne
      simp only [initReads]
      have harith : n + 1 + k = n + (k + 1) := by omega
      rw [harith] at this
      by_cases hg : (readLineFrom g).1 = []
      · rw [if_pos hg]; exact this
      · rw [if_neg hg]; exact List.mem_cons_of_mem _ this

theorem initReads_sum_le : ∀ (fs : List (List Nat)) (n : Nat),
    (((initReads n fs).1.map List.length).sum) ≤ ((fs.map List.length).sum) := by
  intro fs
  induction fs with
  | nil => intro n; simp [initReads]
  | cons f rest ih =>
    intro n
    simp only [initReads, List.map_cons, List.sum_cons]
    have h1 : (readLineFrom f).2.length ≤ f.length := by
      have := readLineFrom_length f
      omega
    have h2 := ih (n + 1)
    omega

theorem initReads_hp_length_le : ∀ (fs : List (List Nat)) (n : Nat),
    (initReads n fs).2.length ≤ fs.length := by
  intro fs
  induction fs with
  | nil => intro n; simp [initReads]
  | cons f rest ih =>
    intro n
    simp only [initReads, List.length_cons]
    by_cases hf : (readLineFrom f).1 = []
    · rw [if_pos hf]
      exact Nat.le_succ_of_le (ih (n + 1))
    · rw [if_neg hf]
      simpa using ih (n + 1)

theorem mergeLoopF_ne_none (pol : Nat → Nat → Bool) : ∀ (fuel : Nat)
    (rs : List (List Nat)) (hp : List (Line × Nat)) (last : Line),
    (∀ e ∈ hp, e.2 < rs.length) → mergeLoopF pol fuel rs hp last ≠ none := by
  intro fuel
  induction fuel with
  | zero => intro rs hp last _; simp [mergeLoopF]
  | succ fuel ih =>
    intro rs hp last hidx
    cases hpop : popHeap pol hp with
    | none => simp [mergeLoopF, hpop]
    | some p =>
      obtain ⟨⟨line, idx⟩, rest⟩ := p
      have hmem : (line, idx) ∈ hp :=
        (popHeap_perm pol hpop).mem_iff.mpr (List.mem_cons_self _ _)
      have hlt : idx < rs.length := hidx _ hmem
      obtain ⟨rb, hrb⟩ : ∃ rb, rs.get? idx = some rb :=
        ⟨_, List.get?_eq_get hlt⟩
      simp only [mergeLoopF, hpop, hrb]
      have hidx' : ∀ e ∈ (if (readLineFrom rb).1 = [] then rest
          else ((readLineFrom rb).1, idx) :: rest),
          e.2 < (rs.set idx (readLineFrom rb).2).length := by
        intro e he
        have hrest : ∀ e ∈ rest, e.2 < rs.length := fun e he' =>
          hidx e ((popHeap_perm pol hpop).mem_iff.mpr (List.mem_cons_of_mem _ he'))
        rw [List.length_set]
        by_cases hnl : (readLineFrom rb).1 = []
        · rw [if_pos hnl] at he; exact hrest e he
        · rw [if_neg hnl] at he
          rcases List.mem_cons.mp he with rfl | he'
          · exact hlt
          · exact hrest e he'
      by_cases hline : line = last
      · rw [if_pos hline]
        exact ih _ _ _ hidx'
      · rw [if_neg hline]
        intro hcon
        rw [Option.map_eq_none'] at hcon
        exact ih _ _ _ hidx' hcon

/-- C10: every run index stored in the merge heap is a valid index into
the readers vector (every heap entry's index comes from enumerating the
readers and the popped index is pushed back unchanged, while `set`
keeps the length), so the `readers[index]` lookup after every pop is in
bounds and the loop never panics — modelled by `mergeLoopF` never
returning `none`, for any tie policy and any run files. -/
theorem merge_heap_indices_in_bounds (pol : Nat → Nat → Bool)
    (files : List (List Nat)) : merge_sorted_files_pol pol files ≠ none := by
  apply mergeLoopF_ne_none
  intro e he
  obtain ⟨k, f, hk, _, _, he2⟩ := initReads_hp_mem files 0 e he
  rw [initReads_fst_length]
  have : k < files.length := by
    rcases List.get?_eq_some.mp hk with ⟨h, _⟩
    exact h
  omega

end Dedup

/-! ## rawLines and bookkeeping lemmas -/

namespace Dedup

theorem rawLinesAux_eq : ∀ (xs acc : List Nat),
    rawLinesAux acc xs =
      if acc = [] ∧ xs = [] then []
      else (acc.reverse ++ (readLineFrom xs).1) :: rawLines (readLineFrom xs).2 := by
  intro xs
  induction xs with
  | nil =>
    intro acc
    by_cases h : acc = []
    · simp [rawLinesAux, h, readLineFrom, rawLines]
    · simp [rawLinesAux, h, readLineFrom, rawLines]
  | cons b rest ih =>
    intro acc
    by_cases hb : b = 10
    · subst hb
      have h1 : readLineFrom (10 :: rest) = ([10], rest) := rfl
      simp only [rawLinesAux, if_pos rfl, h1]
      have hne : ¬(acc = [] ∧ (10 : Nat) :: rest = []) := by simp
      rw [if_neg hne]
      rfl
    · simp only [rawLinesAux, if_neg hb]
      rw [ih (b :: acc)]
      have h2 : ¬(b :: acc = [] ∧ rest = []) := by simp
      rw [if_neg h2]
      have h3 : ¬(acc = [] ∧ b :: rest = []) := by simp
      rw [if_neg h3]
      have h4 : readLineFrom (b :: rest) =
          (b :: (readLineFrom rest).1, (readLineFrom rest).2) := by
        simp [readLineFrom, hb]
      rw [h4]
      simp [List.append_assoc]

theorem rawLines_eq_cons {xs : List Nat} (h : xs ≠ []) :
    rawLines xs = (readLineFrom xs).1 :: rawLines (readLineFrom xs).2 := by
  have hx := rawLinesAux_eq xs []
  simp only [h, and_false, if_false, List.reverse_nil, List.nil_append] at hx
  exact hx

theorem rawLines_eq_nil_iff {xs : List Nat} : rawLines xs = [] ↔ xs = [] := by
  constructor
  · intro h
    by_contra hne
    rw [rawLines_eq_cons hne] at h
    exact List.noConfusion h
  · intro h; subst h; rfl

theorem sum_map_set {α : Type} (f : α → Nat) : ∀ (l : List α) (i : Nat) (a b : α),
    l.get? i = some a → ((l.set i b).map f).sum + f a = (l.map f).sum + f b := by
  intro l
  induction l with
  | nil => intro i a b h; simp at h
  | cons x t ih =>
    intro i a b h
    cases i with
    | zero =>
      have hx : x = a := by simpa using h
      subst hx
      simp only [List.set, List.map_cons, List.sum_cons]
      omega
    | succ i =>
      have h' : t.get? i = some a := by simpa using h
      have := ih i a b h'
      simp only [List.set, List.map_cons, List.sum_cons]
      omega

theorem strictSorted_eq_of_mem_iff : ∀ {l1 l2 : List Line},
    List.Chain' ltB l1 → List.Chain' ltB l2 → (∀ x, x ∈ l1 ↔ x ∈ l2) → l1 = l2 := by
  intro l1
  induction l1 with
  | nil =>
    intro l2 _ _ hmem
    cases l2 with
    | nil => rfl
    | cons b t2 =>
      have := (hmem b).mpr (List.mem_cons_self _ _)
      cases this
  | cons a t1 ih =>
    intro l2 h1 h2 hmem
    cases l2 with
    | nil =>
      have := (hmem a).mp (List.mem_cons_self _ _)
      cases this
    | cons b t2 =>
      have hd1 : ∀ x ∈ t1, ltB a x :=
        chain'_rel_head (R := ltB) (fun _ _ _ u v => bytesLt_trans u v) h1
      have hd2 : ∀ x ∈ t2, ltB b x :=
        chain'_rel_head (R := ltB) (fun _ _ _ u v => bytesLt_trans u v) h2
      have hab : a = b := by
        have ha2 : a ∈ b :: t2 := (hmem a).mp (List.mem_cons_self _ _)
        have hb1 : b ∈ a :: t1 := (hmem b).mpr (List.mem_cons_self _ _)
        rcases List.mem_cons.mp ha2 with h | h
        · exact h
        · rcases List.mem_cons.mp hb1 with h' | h'
          · exact h'.symm
          · exact absurd (bytesLt_trans (hd2 a h) (hd1 b h'))
              (by simp [bytesLt_irrefl])
      subst hab
      congr 1
      apply ih h1.tail h2.tail
      intro x
      constructor
      · intro hx
        have hx2 : x ∈ a :: t2 := (hmem x).mp (List.mem_cons_of_mem _ hx)
        rcases List.mem_cons.mp hx2 with rfl | h
        · exact absurd (hd1 x hx) (by simp [bytesLt_irrefl])
        · exact h
      · intro hx
        have hx1 : x ∈ a :: t1 := (hmem x).mpr (List.mem_cons_of_mem _ hx)
        rcases List.mem_cons.mp hx1 with rfl | h
        · exact absurd (hd2 x hx) (by simp [bytesLt_irrefl])
        · exact h

end Dedup

/-! ## The master merge theorem

Provided every run file is sorted in the raw-line order, the merge loop
emits exactly the strictly sorted sequence of all pending raw lines
greater than the last written line -- independently of the tie policy. -/

namespace Dedup

theorem set_get?_self {α : Type} : ∀ (l : List α) (i : Nat) (a : α),
    l.get? i = some a → l.set i a = l := by
  intro l
  induction l with
  | nil => intro i a h; simp at h
  | cons x t ih =>
    intro i a h
    cases i with
    | zero =>
      have hx : x = a := by simpa using h
      subst hx
      rfl
    | succ i =>
      have h' : t.get? i = some a := by simpa using h
      simp [List.set, ih i a h']

theorem mergeLoopF_sorted_merge (pol : Nat → Nat → Bool) : ∀ (fuel : Nat)
    (rs : List (List Nat)) (hp : List (Line × Nat)) (last : Line),
    mergeMeasure rs hp ≤ fuel →
    (∀ e ∈ hp, e.2 < rs.length) →
    (∀ e ∈ hp, ∀ rb, rs.get? e.2 = some rb →
      List.Chain' leB (e.1 :: rawLines rb)) →
    (∀ j rb, rs.get? j = some rb → rawLines rb ≠ [] → ∃ l, (l, j) ∈ hp) →
    (∀ x, InPending x rs hp → leB last x) →
    ∃ out, mergeLoopF pol fuel rs hp last = some (writeLines out) ∧
      List.Chain' ltB out ∧
      ∀ x, x ∈ out ↔ (InPending x rs hp ∧ ltB last x) := by
  intro fuel
  induction fuel with
  | zero =>
    intro rs hp last hfuel hidx hchain hcover hlast
    refine ⟨[], rfl, List.chain'_nil, ?_⟩
    intro x
    simp only [List.not_mem_nil, false_iff]
    rintro ⟨hpend, _⟩
    unfold mergeMeasure at hfuel
    have hhp : hp = [] := List.length_eq_zero.mp (by omega)
    subst hhp
    rcases hpend with ⟨e, he, _⟩ | ⟨j, rb, hj, hx⟩
    · cases he
    · have hsum : (rs.map List.length).sum = 0 := by omega
      have hrb : rb ∈ rs := List.get?_mem hj
      have hlen : rb.length = 0 :=
        List.sum_eq_zero_iff.mp hsum _ (List.mem_map_of_mem _ hrb)
      have hnil : rb = [] := List.length_eq_zero.mp hlen
      subst hnil
      exact absurd hx (by simp [rawLines, rawLinesAux])
  | succ fuel ih =>
    intro rs hp last hfuel hidx hchain hcover hlast
    cases hpop : popHeap pol hp with
    | none =>
      have hhp := (popHeap_none_iff pol).mp hpop
      subst hhp
      refine ⟨[], by simp [mergeLoopF, popHeap, writeLines], List.chain'_nil, ?_⟩
      intro x
      simp only [List.not_mem_nil, false_iff]
      rintro ⟨hpend, _⟩
      rcases hpend with ⟨e, he, _⟩ | ⟨j, rb, hj, hx⟩
      · cases he
      · by_cases hne : rawLines rb = []
        · rw [hne] at hx; cases hx
        · obtain ⟨l, hl⟩ := hcover j rb hj hne
          cases hl
    | some p =>
      obtain ⟨⟨m, idx⟩, rest⟩ := p
      have hperm : hp.Perm ((m, idx) :: rest) := popHeap_perm pol hpop
      have hmem : (m, idx) ∈ hp := hperm.mem_iff.mpr (List.mem_cons_self _ _)
      have hrestmem : ∀ e ∈ rest, e ∈ hp := fun e he =>
        hperm.mem_iff.mpr (List.mem_cons_of_mem _ he)
      have hlt : idx < rs.length := hidx _ hmem
      obtain ⟨rb, hrb⟩ : ∃ rb, rs.get? idx = some rb := ⟨_, List.get?_eq_get hlt⟩
      have heq : mergeLoopF pol (fuel + 1) rs hp last =
          if m = last then
            mergeLoopF pol fuel (rs.set idx (readLineFrom rb).2)
              (if (readLineFrom rb).1 = [] then rest
               else ((readLineFrom rb).1, idx) :: rest) last
          else
            (mergeLoopF pol fuel (rs.set idx (readLineFrom rb).2)
              (if (readLineFrom rb).1 = [] then rest
               else ((readLineFrom rb).1, idx) :: rest) m).map
              (fun out => (m ++ [10]) ++ out) := by
        simp only [mergeLoopF, hpop, hrb]
      set RS := rs.set idx (readLineFrom rb).2 with hRS
      set HP := (if (readLineFrom rb).1 = [] then rest
        else ((readLineFrom rb).1, idx) :: rest) with hHP
      have hmemHP : ∀ e, e ∈ HP ↔
          ((readLineFrom rb).1 ≠ [] ∧ e = ((readLineFrom rb).1, idx)) ∨ e ∈ rest := by
        intro e
        by_cases hnl : (readLineFrom rb).1 = []
        · rw [hHP, if_pos hnl]; simp [hnl]
        · rw [hHP, if_neg hnl]; simp [hnl, List.mem_cons]
      have hget_idx : RS.get? idx = some (readLineFrom rb).2 := by
        rw [hRS]; exact List.get?_set_eq_of_lt _ hlt
      have hget_ne : ∀ j, j ≠ idx → RS.get? j = rs.get? j := by
        intro j hj
        rw [hRS]; exact List.get?_set_ne _ _ (fun h => hj h.symm)
      have hrawrb : ∀ x, x ∈ rawLines rb ↔
          ((readLineFrom rb).1 ≠ [] ∧ x = (readLineFrom rb).1) ∨
            x ∈ rawLines (readLineFrom rb).2 := by
        intro x
        by_cases hnl : (readLineFrom rb).1 = []
        · have hrbnil : rb = [] := readLineFrom_fst_eq_nil.mp hnl
          subst hrbnil
          simp [rawLines, rawLinesAux, readLineFrom]
        · rw [rawLines_eq_cons (fun h => hnl (readLineFrom_fst_eq_nil.mpr h))]
          simp [hnl, List.mem_cons]
      have hminHeap : ∀ e ∈ hp, leB m e.1 := fun e he => popHeap_min pol hpop e he
      have hmpend : InPending m rs hp := Or.inl ⟨(m, idx), hmem, rfl⟩
      have hminP : ∀ x, InPending x rs hp → leB m x := by
        intro x hx
        rcases hx with ⟨e, he, hex⟩ | ⟨j, rbj, hj, hxj⟩
        · exact hex ▸ hminHeap e he
        · have hne : rawLines rbj ≠ [] := by
            intro h; rw [h] at hxj; cases hxj
          obtain ⟨l, hl⟩ := hcover j rbj hj hne
          have hcj := hchain (l, j) hl rbj hj
          have hlx : leB l x :=
            chain'_rel_head (R := leB) (fun _ _ _ u v => leB_trans u v) hcj x hxj
          exact leB_trans (hminHeap (l, j) hl) hlx
      have hstep : ∀ x, InPending x rs hp ↔ (x = m ∨ InPending x RS HP) := by
        intro x
        constructor
        · rintro (⟨e, he, hex⟩ | ⟨j, rbj, hj, hxj⟩)
          · rcases List.mem_cons.mp (hperm.mem_iff.mp he) with rfl | hr
            · exact Or.inl hex.symm
            · exact Or.inr (Or.inl ⟨e, (hmemHP e).mpr (Or.inr hr), hex⟩)
          · by_cases hjidx : j = idx
            · subst hjidx
              have hrbj : rbj = rb := by
                rw [hj] at hrb; exact (Option.some.injEq _ _).mp hrb.symm |>.symm
              subst hrbj
              rcases (hrawrb x).mp hxj with ⟨hne, rfl⟩ | hx2
              · exact Or.inr (Or.inl ⟨((readLineFrom rbj).1, j),
                  (hmemHP _).mpr (Or.inl ⟨hne, rfl⟩), rfl⟩)
              · exact Or.inr (Or.inr ⟨j, (readLineFrom rbj).2, hget_idx, hx2⟩)
            · exact Or.inr (Or.inr ⟨j, rbj, (hget_ne j hjidx).trans hj, hxj⟩)
        · rintro (rfl | ⟨e, he, hex⟩ | ⟨j, rbj, hj, hxj⟩)
          · exact hmpend
          · rcases (hmemHP e).mp he with ⟨hne, rfl⟩ | hr
            · refine Or.inr ⟨idx, rb, hrb, ?_⟩
              exact (hrawrb _).mpr (Or.inl ⟨hne, hex ▸ rfl⟩)
            · exact Or.inl ⟨e, hrestmem e hr, hex⟩
          · by_cases hjidx : j = idx
            · subst hjidx
              have hrbj : rbj = (readLineFrom rb).2 := by
                rw [hget_idx] at hj
                exact ((Option.some.injEq _ _).mp hj).symm
              subst hrbj
              exact Or.inr ⟨j, rb, hrb, (hrawrb x).mpr (Or.inr hxj)⟩
            · exact Or.inr ⟨j, rbj, (hget_ne j hjidx).symm.trans hj, hxj⟩
      have hidx' : ∀ e ∈ HP, e.2 < RS.length := by
        intro e he
        have hlenRS : RS.length = rs.length := by rw [hRS]; exact List.length_set ..
        rw [hlenRS]
        rcases (hmemHP e).mp he with ⟨_, rfl⟩ | hr
        · exact hlt
        · exact hidx e (hrestmem e hr)
      have hchainm : List.Chain' leB (m :: rawLines rb) := hchain (m, idx) hmem rb hrb
      have hchain' : ∀ e ∈ HP, ∀ rbj, RS.get? e.2 = some rbj →
          List.Chain' leB (e.1 :: rawLines rbj) := by
        intro e he rbj hj
        rcases (hmemHP e).mp he with ⟨hne, rfl⟩ | hr
        · have hrbj : rbj = (readLineFrom rb).2 := by
            rw [hget_idx] at hj
            exact ((Option.some.injEq _ _).mp hj).symm
          subst hrbj
          have hrbne : rb ≠ [] := fun h => hne (readLineFrom_fst_eq_nil.mpr h)
          have := hchainm
          rw [rawLines_eq_cons hrbne] at this
          exact this.tail
        · by_cases hjidx : e.2 = idx
          · have hrbj : rbj = (readLineFrom rb).2 := by
              rw [hjidx] at hj
              rw [hget_idx] at hj
              exact ((Option.some.injEq _ _).mp hj).symm
            subst hrbj
            have holdchain : List.Chain' leB (e.1 :: rawLines rb) :=
              hchain e (hrestmem e hr) rb (hjidx ▸ hrb)
            by_cases hnl : (readLineFrom rb).1 = []
            · have hrbnil : rb = [] := readLineFrom_fst_eq_nil.mp hnl
              subst hrbnil
              exact holdchain
            · have hrbne : rb ≠ [] := fun h => hnl (readLineFrom_fst_eq_nil.mpr h)
              rw [rawLines_eq_cons hrbne] at holdchain
              exact chain'_of_head_rel (R := leB) (fun _ _ _ u v => leB_trans u v)
                (List.chain'_cons.mp holdchain).1 (List.chain'_cons.mp holdchain).2
          · rw [hget_ne e.2 hjidx] at hj
            exact hchain e (hrestmem e hr) rbj hj
      have hcover' : ∀ j rbj, RS.get? j = some rbj → rawLines rbj ≠ [] →
          ∃ l, (l, j) ∈ HP := by
        intro j rbj hj hne
        by_cases hjidx : j = idx
        · subst hjidx
          have hrbj : rbj = (readLineFrom rb).2 := by
            rw [hget_idx] at hj
            exact ((Option.some.injEq _ _).mp hj).symm
          subst hrbj
          have hnl : (readLineFrom rb).1 ≠ [] := by
            intro h
            have hrbnil : rb = [] := readLineFrom_fst_eq_nil.mp h
            rw [hrbnil] at hne
            exact hne rfl
          exact ⟨(readLineFrom rb).1, (hmemHP _).mpr (Or.inl ⟨hnl, rfl⟩)⟩
        · rw [hget_ne j hjidx] at hj
          obtain ⟨l, hl⟩ := hcover j rbj hj hne
          rcases List.mem_cons.mp (hperm.mem_iff.mp hl) with he | hr
          · exact absurd (congrArg Prod.snd he) hjidx
          · exact ⟨l, (hmemHP _).mpr (Or.inr hr)⟩
      have hfuel' : mergeMeasure RS HP ≤ fuel := by
        have hsum := sum_map_set List.length rs idx rb (readLineFrom rb).2 hrb
        have hlen := readLineFrom_length rb
        have hplen : hp.length = rest.length + 1 := by
          have := hperm.length_eq
          simpa using this
        unfold mergeMeasure at hfuel ⊢
        rw [hRS]
        by_cases hnl : (readLineFrom rb).1 = []
        · rw [hHP, if_pos hnl]
          have h0 : (readLineFrom rb).1.length = 0 := by rw [hnl]; rfl
          omega
        · rw [hHP, if_neg hnl]
          have h1 : 0 < (readLineFrom rb).1.length := List.length_pos.mpr hnl
          simp only [List.length_cons]
          omega
      rw [heq]
      by_cases hml : m = last
      · rw [if_pos hml]
        have hlast' : ∀ x, InPending x RS HP → leB last x := fun x hx =>
          hlast x ((hstep x).mpr (Or.inr hx))
        obtain ⟨out, hres, hco, hmemo⟩ :=
          ih RS HP last hfuel' hidx' hchain' hcover' hlast'
        refine ⟨out, hres, hco, ?_⟩
        intro x
        rw [hmemo x]
        constructor
        · rintro ⟨hpend, hlx⟩
          exact ⟨(hstep x).mpr (Or.inr hpend), hlx⟩
        · rintro ⟨hpend, hlx⟩
          rcases (hstep x).mp hpend with rfl | hp'
          · subst hml
            exact absurd hlx (by simp [bytesLt_irrefl])
          · exact ⟨hp', hlx⟩
      · rw [if_neg hml]
        have hlast' : ∀ x, InPending x RS HP → leB m x := fun x hx =>
          hminP x ((hstep x).mpr (Or.inr hx))
        obtain ⟨out, hres, hco, hmemo⟩ :=
          ih RS HP m hfuel' hidx' hchain' hcover' hlast'
        have hltm : ltB last m :=
          lt_of_not_lt_ne (hlast m hmpend) (fun he => hml he.symm)
        refine ⟨m :: out, ?_, ?_, ?_⟩
        · rw [hres]
          simp [writeLines]
        · refine List.chain'_cons'.mpr ⟨?_, hco⟩
          intro y hy
          exact ((hmemo y).mp (List.mem_of_mem_head? hy)).2
        · intro x
          constructor
          · intro hx
            rcases List.mem_cons.mp hx with rfl | hx'
            · exact ⟨hmpend, hltm⟩
            · obtain ⟨hpend', hmx⟩ := (hmemo x).mp hx'
              exact ⟨(hstep x).mpr (Or.inr hpend'), bytesLt_trans hltm hmx⟩
          · rintro ⟨hpend, hlx⟩
            by_cases hxm : x = m
            · subst hxm
              exact List.mem_cons_self _ _
            · rcases (hstep x).mp hpend with rfl | hp'
              · exact absurd rfl hxm
              · have hmx : ltB m x :=
                  lt_of_not_lt_ne (hminP x hpend) (fun he => hxm he.symm)
                exact List.mem_cons_of_mem _ ((hmemo x).mpr ⟨hp', hmx⟩)

end Dedup

/-! ## Claim C9 -/

namespace Dedup

/-- C9 (counterexample): the tie-break order between equal heap lines
does change the bytes written.  For the runs `[a]` and `[a, a\t]`
(raw-line files `a\n` and `a\na\t\n`), popping the larger index first
(the code's order) yields `a\n\na\t\n\na\n\n`, while popping the
smaller index first yields `a\n\na\t\n\n`: after run 1's `a` is
written, run 1's next raw line `a\t\n` sorts below `a\n`, so the order
in which the two equal `a\n` entries pop decides whether run 0's `a`
still compares equal to the last written line. -/
theorem tie_break_order_changes_output :
    merge_sorted_files_pol tieCode [[97, 10], [97, 10, 97, 9, 10]] ≠
      merge_sorted_files_pol (fun i j => Nat.blt i j)
        [[97, 10], [97, 10, 97, 9, 10]] := by
  decide

/-- C9 (amended): the pipeline is deterministic -- the merge pops are a
function of the heap contents since the keys `(Reverse line, index)`
are totally ordered, the code popping the larger run index first among
equal lines.  The tie-break order can affect the output when a run is
not sorted under the raw-line order (see the counterexample); whenever
every run file's raw lines are sorted (in particular for lines free of
bytes below the newline byte 10), the tie-break policy never affects
the bytes written: any two policies produce identical output. -/
theorem tie_break_irrelevant_for_sorted_runs (files : List (List Nat))
    (p q : Nat → Nat → Bool)
    (h : ∀ f ∈ files, List.Chain' leB (rawLines f)) :
    merge_sorted_files_pol p files = merge_sorted_files_pol q files := by
  have key : ∀ pol : Nat → Nat → Bool, ∃ out,
      merge_sorted_files_pol pol files = some (writeLines out) ∧
      List.Chain' ltB out ∧
      ∀ x, x ∈ out ↔
        (InPending x (initReads 0 files).1 (initReads 0 files).2 ∧ ltB [] x) := by
    intro pol
    unfold merge_sorted_files_pol
    apply mergeLoopF_sorted_merge
    · unfold mergeMeasure mergeFuel
      have h1 := initReads_sum_le files 0
      have h2 := initReads_hp_length_le files 0
      omega
    · intro e he
      obtain ⟨k, f, hk, _, _, he2⟩ := initReads_hp_mem files 0 e he
      rw [initReads_fst_length]
      have hklt : k < files.length := by
        rcases List.get?_eq_some.mp hk with ⟨hh, _⟩
        exact hh
      omega
    · intro e he rb hrb
      obtain ⟨k, f, hk, he1, hne, he2⟩ := initReads_hp_mem files 0 e he
      have he2' : e.2 = k := by omega
      rw [initReads_fst_get?, he2', hk] at hrb
      have hrb' : rb = (readLineFrom f).2 := by
        simpa using hrb.symm
      subst hrb'
      have hfne : f ≠ [] := fun hf =>
        (he1 ▸ hne) (readLineFrom_fst_eq_nil.mpr hf)
      have hcf : List.Chain' leB (rawLines f) := h f (List.get?_mem hk)
      rw [rawLines_eq_cons hfne] at hcf
      rw [he1]
      exact hcf
    · intro j rb hrb hne
      rw [initReads_fst_get?] at hrb
      obtain ⟨f, hf, hrb'⟩ := Option.map_eq_some'.mp hrb
      subst hrb'
      have hfst : (readLineFrom f).1 ≠ [] := by
        intro h0
        have hfnil : f = [] := readLineFrom_fst_eq_nil.mp h0
        subst hfnil
        exact hne (by rfl)
      have := initReads_hp_cover files 0 j f hf hfst
      simp only [Nat.zero_add] at this
      exact ⟨(readLineFrom f).1, this⟩
    · intro x _
      exact bytesLt_nil_right x
  obtain ⟨o1, e1, c1, m1⟩ := key p
  obtain ⟨o2, e2, c2, m2⟩ := key q
  have ho : o1 = o2 :=
    strictSorted_eq_of_mem_iff c1 c2 (fun x => (m1 x).trans (m2 x).symm)
  rw [e1, e2, ho]

/-- Witness for `tie_break_irrelevant_for_sorted_runs`: instantiated at
the single sorted run file `a\n` with the code's policy against the
opposite policy. -/
theorem tie_break_irrelevant_for_sorted_runs_witness :
    (∀ f ∈ [[97, 10]], List.Chain' leB (rawLines f)) ∧
    merge_sorted_files_pol tieCode [[97, 10]] =
      merge_sorted_files_pol (fun i j => Nat.blt i j) [[97, 10]] := by
  have hch : ∀ f ∈ [[97, 10]], List.Chain' leB (rawLines f) := by
    intro f hf
    have hf' : f = [97, 10] := by simpa using hf
    subst hf'
    show List.Chain' leB [[97, 10]]
    exact List.chain'_singleton _
  exact ⟨hch, tie_break_irrelevant_for_sorted_runs _ _ _ hch⟩

end Dedup

/-! ## Claim C8: the I/O failure model -/

namespace Dedup

theorem readLineE_length {err : Bool} : ∀ {b l r : List Nat},
    readLineE err b = some (l, r) → l.length + r.length = b.length := by
  intro b
  induction b with
  | nil =>
    intro l r h
    cases err <;> simp [readLineE] at h
    obtain ⟨h1, h2⟩ := h
    subst h1; subst h2
    rfl
  | cons x rest ih =>
    intro l r h
    by_cases hx : x = 10
    · simp only [readLineE, if_pos hx] at h
      cases h
      simp [Nat.add_comm]
    · cases hrest : readLineE err rest with
      | none => simp [readLineE, hx, hrest] at h
      | some p =>
        simp only [readLineE, if_neg hx, hrest] at h
        cases h
        have := ih hrest
        simp only [List.length_cons]
        omega

theorem readLineE_err_fst_ne_nil : ∀ {b l r : List Nat},
    readLineE true b = some (l, r) → l ≠ [] := by
  intro b
  induction b with
  | nil => intro l r h; simp [readLineE] at h
  | cons x rest ih =>
    intro l r h
    by_cases hx : x = 10
    · simp only [readLineE, if_pos hx] at h
      cases h
      simp
    · cases hrest : readLineE true rest with
      | none => simp [readLineE, hx, hrest] at h
      | some p =>
        simp only [readLineE, if_neg hx, hrest] at h
        cases h
        simp

theorem readLineE_fst_nil {err : Bool} : ∀ {b r : List Nat},
    readLineE err b = some ([], r) → b = [] ∧ r = [] := by
  intro b
  cases b with
  | nil =>
    intro r h
    cases err <;> simp [readLineE] at h
    exact ⟨rfl, h⟩
  | cons x rest =>
    intro r h
    by_cases hx : x = 10
    · simp only [readLineE, if_pos hx] at h
      cases h
    · cases hrest : readLineE err rest with
      | none => simp [readLineE, hx, hrest] at h
      | some p =>
        simp only [readLineE, if_neg hx, hrest] at h
        cases h

theorem initReadsE_spec : ∀ (fs : List (List Nat × Bool)) (n : Nat)
    (rs : List (List Nat × Bool)) (hp : List (Line × Nat)),
    initReadsE n fs = some (rs, hp) →
    rs.length = fs.length ∧
    hp.length ≤ fs.length ∧
    (rs.map (fun p => p.1.length)).sum ≤ (fs.map (fun p => p.1.length)).sum ∧
    (∀ e ∈ hp, ∃ k, k < fs.length ∧ e.2 = n + k) ∧
    (∀ k b er, rs.get? k = some (b, er) → ∃ b0, fs.get? k = some (b0, er)) ∧
    (∀ k b, rs.get? k = some (b, true) → ∃ l, (l, n + k) ∈ hp) := by
  intro fs
  induction fs with
  | nil =>
    intro n rs hp h
    simp only [initReadsE] at h
    cases h
    refine ⟨rfl, by simp, by simp, ?_, ?_, ?_⟩
    · intro e he; cases he
    · intro k b er hk; simp at hk
    · intro k b hk; simp at hk
  | cons f rest ih =>
    intro n rs hp h
    obtain ⟨bytes, err⟩ := f
    cases hread : readLineE err bytes with
    | none =>
      simp only [initReadsE, hread] at h
      exact Option.noConfusion h
    | some p =>
      cases hrest : initReadsE (n + 1) rest with
      | none =>
        simp only [initReadsE, hread, hrest] at h
        exact Option.noConfusion h
      | some s =>
        obtain ⟨rs0, hp0⟩ := s
        simp only [initReadsE, hread, hrest] at h
        cases h
        obtain ⟨ih1, ih2, ih3, ih4, ih5, ih6⟩ := ih (n + 1) rs0 hp0 hrest
        have hle := readLineE_length hread
        refine ⟨by simp [ih1], ?_, ?_, ?_, ?_, ?_⟩
        · by_cases hp1 : p.1 = []
          · rw [if_pos hp1]
            simpa using Nat.le_succ_of_le ih2
          · rw [if_neg hp1]
            simpa using ih2
        · simp only [List.map_cons, List.sum_cons]
          omega
        · intro e he
          by_cases hp1 : p.1 = []
          · rw [if_pos hp1] at he
            obtain ⟨k, hk, he2⟩ := ih4 e he
            exact ⟨k + 1, by simpa using hk, by omega⟩
          · rw [if_neg hp1] at he
            rcases List.mem_cons.mp he with rfl | he'
            · exact ⟨0, by simp, by simp⟩
            · obtain ⟨k, hk, he2⟩ := ih4 e he'
              exact ⟨k + 1, by simpa using hk, by omega⟩
        · intro k b er hk
          cases k with
          | zero =>
            have hb : (p.2, err) = (b, er) := by simpa using hk
            refine ⟨bytes, ?_⟩
            rw [show er = err from (congrArg Prod.snd hb).symm]
            rfl
          | succ k =>
            have hk' : rs0.get? k = some (b, er) := by simpa using hk
            obtain ⟨b0, hb0⟩ := ih5 k b er hk'
            exact ⟨b0, by simpa using hb0⟩
        · intro k b hk
          cases k with
          | zero =>
            have hb : (p.2, err) = (b, true) := by simpa using hk
            have herr : err = true := congrArg Prod.snd hb
            subst herr
            have hne : p.1 ≠ [] := by
              have : readLineE true bytes = some (p.1, p.2) := hread
              exact readLineE_err_fst_ne_nil this
            rw [if_neg hne]
            exact ⟨p.1, by simp⟩
          | succ k =>
            have hk' : rs0.get? k = some (b, true) := by simpa using hk
            obtain ⟨l, hl⟩ := ih6 k b hk'
            have harith : n + 1 + k = n + (k + 1) := by omega
            rw [harith] at hl
            refine ⟨l, ?_⟩
            by_cases hp1 : p.1 = []
            · rw [if_pos hp1]; exact hl
            · rw [if_neg hp1]; exact List.mem_cons_of_mem _ hl

theorem mergeLoopE_io_error : ∀ (fuel : Nat) (rs : List (List Nat × Bool))
    (hp : List (Line × Nat)) (last : Line),
    measureE rs hp ≤ fuel →
    (∀ e ∈ hp, e.2 < rs.length) →
    (∀ k b, rs.get? k = some (b, true) → ∃ l, (l, k) ∈ hp) →
    (∃ k b, rs.get? k = some (b, true)) →
    mergeLoopE fuel rs hp last = .ioError := by
  intro fuel
  induction fuel with
  | zero =>
    intro rs hp last hfuel hidx herrent hex
    exfalso
    obtain ⟨k, b, hk⟩ := hex
    obtain ⟨l, hl⟩ := herrent k b hk
    have hne : hp ≠ [] := by intro h; subst h; cases hl
    have := List.length_pos.mpr hne
    unfold measureE at hfuel
    omega
  | succ fuel ih =>
    intro rs hp last hfuel hidx herrent hex
    obtain ⟨k, b, hk⟩ := hex
    obtain ⟨l, hl⟩ := herrent k b hk
    cases hpop : popHeap tieCode hp with
    | none =>
      have := (popHeap_none_iff tieCode).mp hpop
      subst this
      cases hl
    | some p =>
      obtain ⟨⟨line, idx⟩, rest⟩ := p
      have hperm := popHeap_perm tieCode hpop
      have hmem : (line, idx) ∈ hp := hperm.mem_iff.mpr (List.mem_cons_self _ _)
      have hrestmem : ∀ e ∈ rest, e ∈ hp := fun e he =>
        hperm.mem_iff.mpr (List.mem_cons_of_mem _ he)
      have hlt : idx < rs.length := hidx _ hmem
      obtain ⟨pr, hpr⟩ : ∃ pr, rs.get? idx = some pr := ⟨_, List.get?_eq_get hlt⟩
      obtain ⟨rb, er⟩ := pr
      cases hread : readLineE er rb with
      | none => simp only [mergeLoopE, hpop, hpr, hread]
      | some q =>
        obtain ⟨nl, rb'⟩ := q
        have heq : mergeLoopE (fuel + 1) rs hp last =
            match mergeLoopE fuel (rs.set idx (rb', er))
                (if nl = [] then rest else (nl, idx) :: rest)
                (if line = last then last else line) with
            | .ok out => .ok (if line = last then out else (line ++ [10]) ++ out)
            | e => e := by
          simp only [mergeLoopE, hpop, hpr, hread]
        have hrec : mergeLoopE fuel (rs.set idx (rb', er))
            (if nl = [] then rest else (nl, idx) :: rest)
            (if line = last then last else line) = .ioError := by
          apply ih
          · have hsum := sum_map_set (fun p : List Nat × Bool => p.1.length)
              rs idx (rb, er) (rb', er) hpr
            have hlen := readLineE_length hread
            have hplen : hp.length = rest.length + 1 := by
              have := hperm.length_eq
              simpa using this
            unfold measureE at hfuel ⊢
            by_cases hnl : nl = []
            · rw [if_pos hnl]
              have h0 : nl.length = 0 := by rw [hnl]; rfl
              simp only at hsum
              omega
            · rw [if_neg hnl]
              have h1 : 0 < nl.length := List.length_pos.mpr hnl
              simp only at hsum
              simp only [List.length_cons]
              omega
          · intro e he
            rw [List.length_set]
            by_cases hnl : nl = []
            · rw [if_pos hnl] at he
              exact hidx e (hrestmem e he)
            · rw [if_neg hnl] at he
              rcases List.mem_cons.mp he with rfl | he'
              · exact hlt
              · exact hidx e (hrestmem e he')
          · intro k2 b2 hk2
            by_cases hk2idx : k2 = idx
            · subst hk2idx
              rw [List.get?_set_eq_of_lt _ hlt] at hk2
              have her : er = true := congrArg Prod.snd ((Option.some.injEq _ _).mp hk2)
              subst her
              have hne : nl ≠ [] := readLineE_err_fst_ne_nil hread
              rw [if_neg hne]
              exact ⟨nl, List.mem_cons_self _ _⟩
            · rw [List.get?_set_ne _ _ (fun h => hk2idx h.symm)] at hk2
              obtain ⟨l2, hl2⟩ := herrent k2 b2 hk2
              have hl2' : (l2, k2) ∈ rest := by
                rcases List.mem_cons.mp (hperm.mem_iff.mp hl2) with he | hr
                · exact absurd (congrArg Prod.snd he) hk2idx
                · exact hr
              by_cases hnl : nl = []
              · rw [if_pos hnl]; exact ⟨l2, hl2'⟩
              · rw [if_neg hnl]; exact ⟨l2, List.mem_cons_of_mem _ hl2'⟩
          · by_cases hkidx : k = idx
            · subst hkidx
              rw [hk] at hpr
              have her : er = true := (congrArg Prod.snd ((Option.some.injEq _ _).mp hpr)).symm
              subst her
              exact ⟨k, rb', by rw [List.get?_set_eq_of_lt _ hlt]⟩
            · exact ⟨k, b, by rw [List.get?_set_ne _ _ (fun h => hkidx h.symm)]; exact hk⟩
        rw [heq, hrec]

/-- C8 (counterexample): the claim states that a run file that cannot
be opened makes the merger fail with a propagated `IOError` rather than
by any other mechanism.  But `merge_sorted_files` opens the run files
with `File::open(file.path()).unwrap()`, so an open failure panics the
process instead of producing an error result. -/
theorem run_open_failure_panics :
    merge_sorted_files_err [⟨false, [97, 10], false⟩] = .panicked ∧
      MergeResultE.panicked ≠ MergeResultE.ioError := by
  exact ⟨by decide, by decide⟩

/-- C8 (amended): read failures are indeed propagated as an `IOError`
result: if every run file opens successfully and some run file fails
when read past its available bytes (whether during heap initialization
or mid-merge), the merger returns `ioError` -- every erroring reader
keeps an entry in the heap until its failing read is reached, so the
loop can neither finish nor panic first.  Open failures, by contrast,
panic (see `run_open_failure_panics`). -/
theorem run_read_failure_propagates_io_error (files : List RunFile)
    (hopen : ∀ f ∈ files, f.openOk = true)
    (herr : ∃ f ∈ files, f.readErr = true) :
    merge_sorted_files_err files = .ioError := by
  unfold merge_sorted_files_err
  have hany : files.any (fun f => !f.openOk) = false := by
    rw [List.any_eq_false]
    intro f hf
    simp [hopen f hf]
  rw [hany]
  simp only [Bool.false_eq_true, if_false]
  cases hinit : initReadsE 0 (files.map (fun f => (f.bytes, f.readErr))) with
  | none => rfl
  | some s =>
    obtain ⟨rs, hp⟩ := s
    obtain ⟨sl, shl, ssum, sent, sflag, serr⟩ :=
      initReadsE_spec (files.map (fun f => (f.bytes, f.readErr))) 0 rs hp hinit
    show mergeLoopE (mergeFuelE files) rs hp [] = .ioError
    simp only [List.length_map] at sl shl sent
    apply mergeLoopE_io_error
    · have h1 : (rs.map (fun p => p.1.length)).sum ≤
          (files.map (fun f => f.bytes.length)).sum := by
        have h2 := ssum
        rw [List.map_map] at h2
        exact h2
      unfold measureE mergeFuelE
      omega
    · intro e he
      obtain ⟨k, hk, he2⟩ := sent e he
      rw [sl]
      omega
    · intro k b hk
      obtain ⟨l, hl⟩ := serr k b hk
      exact ⟨l, by simpa using hl⟩
    · obtain ⟨f, hf, hferr⟩ := herr
      obtain ⟨k, hk⟩ := List.mem_iff_get?.mp hf
      have hfk : (files.map (fun f => (f.bytes, f.readErr))).get? k =
          some (f.bytes, true) := by
        rw [List.get?_map, hk]
        simp [hferr]
      have hklt : k < rs.length := by
        rw [sl]
        rcases List.get?_eq_some.mp hk with ⟨hh, _⟩
        exact hh
      obtain ⟨pr, hpr⟩ : ∃ pr, rs.get? k = some pr := ⟨_, List.get?_eq_get hklt⟩
      obtain ⟨b0, hb0⟩ := sflag k pr.1 pr.2 (by rw [hpr])
      rw [hfk] at hb0
      have : pr.2 = true := (congrArg Prod.snd ((Option.some.injEq _ _).mp hb0)).symm
      exact ⟨k, pr.1, by rw [hpr, ← this]⟩

/-- Witness for `run_read_failure_propagates_io_error`: a single run
file that opens, yields one full line, then fails on the next read. -/
theorem run_read_failure_propagates_io_error_witness :
    (∀ f ∈ [RunFile.mk true [97, 10, 98] true], f.openOk = true) ∧
    merge_sorted_files_err [RunFile.mk true [97, 10, 98] true] = .ioError := by
  refine ⟨by decide, ?_⟩
  exact run_read_failure_propagates_io_error _ (by decide)
    ⟨RunFile.mk true [97, 10, 98] true, by simp, rfl⟩

end Dedup
